import Mathlib

/-!
Verification of the Alternating Least Squares (ALS) optimization core of
`recommender_systems.ipynb`.

The notebook's `als` function (final code cell) is embedded shallowly:

* matrices are `List (List ℚ)` (dense 2-D numeric arrays; exact rationals
  stand in for floating-point reals, which is adequate for the structural,
  shape and masking properties verified here);
* numpy operations that can fail at runtime (out-of-range indexing,
  incompatible shapes for `dot`) are modelled in the `Option` monad:
  `none` is an aborted run (a raised `IndexError`/`ValueError`);
* `np.linalg.pinv` is kept abstract: the embedding is parametrized by a
  function `pinv : Mat → Mat`, and theorems that need it assume only its
  shape contract `pinvSpec` (the pseudo-inverse of an n×k matrix is k×n),
  which `np.linalg.pinv` satisfies.  The transpose `tr` is one concrete
  function satisfying the contract and is used to instantiate witnesses.
-/

/-- Dense numeric vector (one row of a 2-D array). -/
abbrev Vec := List ℚ

/-- Dense numeric matrix: a list of rows. -/
abbrev Mat := List Vec

/-- Dot product of two rows of equal length (`np.dot` on 1-D operands). -/
def dot (a b : Vec) : ℚ :=
  (List.zipWith (· * ·) a b).sum

/-- Matrix–vector product `A.dot(v)` (numpy): each row of `A` is dotted with
`v`; numpy raises `ValueError` when the row length and `len(v)` differ, which
the embedding reports as `none`. -/
def matVec (A : Mat) (v : Vec) : Option Vec :=
  match A with
  | [] => some []
  | row :: rest =>
    if row.length = v.length then do
      let xs ← matVec rest v
      some (dot row v :: xs)
    else none

/-- Transpose `A.T` of a rectangular 2-D array: column `j` of `A` becomes row
`j`; the column count is read off the first row, as a rectangular numpy array
determines it. -/
def tr (A : Mat) : Mat :=
  (List.range (A.headD []).length).map (fun j => A.map (fun row => row.getD j 0))

/-- Helper for `matMul`: rows of the product `A·B`, traversing the rows of
`A`; `Bt` is the transpose of `B`, so each output entry is a row–column dot
product. -/
def matMulAux (Bt : Mat) : Mat → Option Mat
  | [] => some []
  | a :: rest => do
    let r ← matVec Bt a
    let rs ← matMulAux Bt rest
    some (r :: rs)

/-- Matrix product `A.dot(B)` (numpy): entry (i, j) is the dot product of row
i of `A` with column j of `B`; `none` on a shape mismatch. -/
def matMul (A B : Mat) : Option Mat :=
  matMulAux (tr B) A

/-- The user sweep of one ALS iteration, from the notebook:

    new_users = []
    for i in range(len(ratings)):
        user = np.linalg.pinv(items).dot(ratings[i])
        new_users.append(user)

One least-squares solve per row of `ratings`, against the raw rating row. -/
def userSweep (pinv : Mat → Mat) (items : Mat) : Mat → Option Mat
  | [] => some []
  | row :: rest => do
    let u ← matVec (pinv items) row
    let us ← userSweep pinv items rest
    some (u :: us)

/-- Helper for `itemSweep`: performs `n` solves, reading `ratings_cols[i]`,
`ratings_cols[i+1]`, … (`none` models the `IndexError` numpy raises when the
index runs past the rows of `ratings_cols`). -/
def itemSweepAux (P ratings_cols : Mat) (i : Nat) : Nat → Option Mat
  | 0 => some []
  | n + 1 => do
    let c ← ratings_cols[i]?
    let q ← matVec P c
    let qs ← itemSweepAux P ratings_cols (i + 1) n
    some (q :: qs)

/-- The item sweep of one ALS iteration, from the notebook:

    new_items = []
    for i in range(len(ratings)):
        item = np.linalg.pinv(new_users).dot(ratings_cols[i])
        new_items.append(item)

Note the loop bound is `len(ratings)` (the number of users), exactly as in
the source. -/
def itemSweep (pinv : Mat → Mat) (new_users ratings ratings_cols : Mat) : Option Mat :=
  itemSweepAux (pinv new_users) ratings_cols 0 ratings.length

/-- One inner pass of the error loop, from the notebook:

    for j in range(len(ratings[i])):
        if ratings[i, j] != 0:
            err += (ratings[i, j] - guess[i, j])**2

`row` is the remaining suffix of `ratings[i]` and `j` the absolute column
index; `guess[i, j]` is only read when the rating is nonzero, and an
out-of-range read is `none` (numpy `IndexError`). -/
def rowErrFrom (guess : Mat) (i : Nat) : Vec → Nat → Option ℚ
  | [], _ => some 0
  | rij :: rest, j => do
    let t ← if rij = 0 then some (0 : ℚ) else do
      let g ← guess[i]?
      let gij ← g[j]?
      some ((rij - gij) ^ 2)
    let s ← rowErrFrom guess i rest (j + 1)
    some (t + s)

/-- The outer pass of the error loop (`for i in range(len(ratings))`), with
`i` the absolute row index of the first row of `rows`. -/
def maskedErrAux (guess : Mat) : List Vec → Nat → Option ℚ
  | [], _ => some 0
  | row :: rest, i => do
    let t ← rowErrFrom guess i row 0
    let s ← maskedErrAux guess rest (i + 1)
    some (t + s)

/-- The per-iteration error of the notebook: the sum of squared residuals
over the nonzero entries of `ratings`, read against `guess`. -/
def maskedErr (ratings guess : Mat) : Option ℚ :=
  maskedErrAux guess ratings 0

/-- One iteration of the `als` loop body: the user sweep, the item sweep, the
reconstruction `guess = new_users.dot(new_items.T)` and the printed error.
Returns `(new_users, new_items, guess, err)`. -/
def alsStep (pinv : Mat → Mat) (ratings ratings_cols items : Mat) :
    Option (Mat × Mat × Mat × ℚ) := do
  let nu ← userSweep pinv items ratings
  let ni ← itemSweep pinv nu ratings ratings_cols
  let guess ← matMul nu (tr ni)
  let e ← maskedErr ratings guess
  some (nu, ni, guess, e)

/-- The `for _ in range(reps)` loop of `als`, threading `items ← new_items`
between iterations and collecting the printed errors in order.  `reps = 0`
is `none`: the Python function would then reach `return new_users.dot(...)`
with `new_users` unbound (`NameError`). -/
def alsIter (pinv : Mat → Mat) (ratings ratings_cols : Mat) :
    Nat → Mat → Option (Mat × Mat × List ℚ)
  | 0, _ => none
  | 1, items => do
    let (nu, ni, _g, e) ← alsStep pinv ratings ratings_cols items
    some (nu, ni, [e])
  | n + 2, items => do
    let (_nu, ni0, _g, e) ← alsStep pinv ratings ratings_cols items
    let (nu, ni, errs) ← alsIter pinv ratings ratings_cols (n + 1) ni0
    some (nu, ni, e :: errs)

/-- The notebook's `als(ratings, users, items, reps)`: computes
`ratings_cols = ratings.T`, runs the loop, and returns the final
reconstruction `new_users.dot(new_items.T)` together with the sequence of
per-iteration errors.  The `users` argument is part of the signature but,
as in the source, is never read. -/
def als (pinv : Mat → Mat) (ratings users items : Mat) (reps : Nat) :
    Option (Mat × List ℚ) := do
  let (nu, ni, errs) ← alsIter pinv ratings (tr ratings) reps items
  let final ← matMul nu (tr ni)
  some (final, errs)

/-- `A` is a rectangular `rows × cols` matrix. -/
def isRect (A : Mat) (rows cols : Nat) : Prop :=
  A.length = rows ∧ ∀ row ∈ A, row.length = cols

instance (A : Mat) (rows cols : Nat) : Decidable (isRect A rows cols) := by
  unfold isRect; infer_instance

/-- The shape of a rectangular matrix, `(rows, cols)`. -/
def shape (A : Mat) : Nat × Nat :=
  (A.length, (A.headD []).length)

/-- Shape contract of `np.linalg.pinv`: the Moore–Penrose pseudo-inverse of a
(nonempty) n×k matrix is a k×n matrix. -/
def pinvSpec (pinv : Mat → Mat) : Prop :=
  ∀ A m n, isRect A m n → 0 < m → isRect (pinv A) n m

/-- Written from the spec's words, for comparison with the code's error loop:
"Masked Squared Error (scalar): sum over all (i,j) where R[i,j] ≠ sentinel of
(R[i,j] − R̂[i,j])²" — entry (i, j) contributes its squared residual when the
rating is nonzero and exactly 0 when it is the sentinel 0. -/
def specMaskedErr (ratings guess : Mat) : ℚ :=
  (List.zipWith
    (fun r g => (List.zipWith (fun x y => if x = 0 then 0 else (x - y) ^ 2) r g).sum)
    ratings guess).sum

/-- State-passing rendering of the `als` loop, for the frame property: the
ratings matrix and its transposed view `ratings_cols` are the only data the
loop shares across iterations besides the explicit `items` handoff, so they
are threaded through every iteration as explicit state and handed back at the
end.  The loop body contains no assignment to either (its assignments are to
`new_users`, `new_items`, `guess`, `err` and `items` only), so each iteration
returns the pair it received. -/
def alsIterSt (pinv : Mat → Mat) :
    Nat → Mat × Mat → Mat → Option ((Mat × Mat) × Mat × Mat × List ℚ)
  | 0, _, _ => none
  | 1, st, items => do
    let (nu, ni, _g, e) ← alsStep pinv st.1 st.2 items
    some (st, nu, ni, [e])
  | n + 2, st, items => do
    let (_nu, ni0, _g, e) ← alsStep pinv st.1 st.2 items
    let (st', nu, ni, errs) ← alsIterSt pinv (n + 1) st ni0
    some (st', nu, ni, e :: errs)

/-- The `als` entry point with the ratings buffer made explicit state: the
first component of the result is the ratings matrix as held when the run
returns. -/
def alsSt (pinv : Mat → Mat) (ratings users items : Mat) (reps : Nat) :
    Option (Mat × Mat × List ℚ) := do
  let (st', nu, ni, errs) ← alsIterSt pinv reps (ratings, tr ratings) items
  let final ← matMul nu (tr ni)
  some (st'.1, final, errs)

/-- The 2×5 ratings matrix of the notebook's simple example (cell building
`ratings_arr`): Brian and Erin rating five films, 0 the missing sentinel. -/
def ratings_arr : Mat := [[0, 1, 0, 0, 4], [0, 0, 0, 5, 0]]

/-- A 5×10 initial item-factor matrix (the shape of the notebook's
`items_arr`; the claims under study depend only on its shape, so a concrete
stand-in with zero entries is used where one is needed). -/
def items_init : Mat := List.replicate 5 (List.replicate 10 0)

/-- A 2×3 ratings matrix (more items than users) whose nonzero entries sit in
the first two columns, so a run of `als` completes without an index error. -/
def ratings_wide : Mat := [[1, 0, 0], [0, 2, 0]]

/-- A 3×2 initial item-factor matrix matching `ratings_wide` (3 items, latent
dimension 2). -/
def items_init_wide : Mat := List.replicate 3 (List.replicate 2 0)

/-! ## Helper lemmas -/

theorem dot_replicate_zero (a : Vec) (n : Nat) : dot a (List.replicate n 0) = 0 := by
  induction a generalizing n with
  | nil => simp [dot]
  | cons x rest ih =>
    cases n with
    | zero => simp [dot]
    | succ m => simpa [dot, List.replicate_succ] using ih m

theorem matVec_eq_some (A : Mat) (v : Vec) (h : ∀ r ∈ A, r.length = v.length) :
    matVec A v = some (A.map (fun r => dot r v)) := by
  induction A with
  | nil => simp [matVec]
  | cons row rest ih =>
    rw [matVec, if_pos (h row (by simp))]
    rw [ih (fun r hr => h r (by simp [hr]))]
    rfl

theorem matVec_length {A : Mat} {v w : Vec} (h : matVec A v = some w) :
    w.length = A.length := by
  induction A generalizing w with
  | nil =>
    rw [matVec] at h
    cases h
    rfl
  | cons row rest ih =>
    rw [matVec] at h
    by_cases hl : row.length = v.length
    · rw [if_pos hl] at h
      cases hw : matVec rest v with
      | none => rw [hw] at h; cases h
      | some xs =>
        rw [hw] at h
        cases h
        simp [ih hw]
    · rw [if_neg hl] at h
      cases h

theorem matVec_replicate_zero (A : Mat) (n : Nat) (h : ∀ r ∈ A, r.length = n) :
    matVec A (List.replicate n 0) = some (List.replicate A.length 0) := by
  rw [matVec_eq_some A _ (fun r hr => by simp [h r hr])]
  congr 1
  induction A with
  | nil => simp
  | cons row rest ih =>
    simp [dot_replicate_zero, List.replicate_succ,
      ih (fun r hr => h r (by simp [hr]))]

theorem tr_rect {A : Mat} {m n : Nat} (h : isRect A m n) (hm : 0 < m) :
    isRect (tr A) n m := by
  obtain ⟨hlen, hrows⟩ := h
  have hhead : (A.headD []).length = n := by
    cases A with
    | nil => simp at hlen; omega
    | cons r rest => simpa using hrows r (by simp)
  constructor
  · rw [tr]
    simp only [List.length_map, List.length_range]
    exact hhead
  · intro row hr
    simp only [tr, List.mem_map, List.mem_range] at hr
    obtain ⟨j, _, rfl⟩ := hr
    simp [hlen]

theorem tr_pinvSpec : pinvSpec tr := fun _ _ _ h hm => tr_rect h hm

theorem userSweep_eq_some (pinv : Mat → Mat) (items : Mat) (ratings : Mat) (n : Nat)
    (hrows : ∀ row ∈ ratings, row.length = n)
    (hp : ∀ r ∈ pinv items, r.length = n) :
    userSweep pinv items ratings =
      some (ratings.map (fun row => (pinv items).map (fun r => dot r row))) := by
  induction ratings with
  | nil => simp [userSweep]
  | cons row rest ih =>
    have h1 : matVec (pinv items) row = some ((pinv items).map (fun r => dot r row)) :=
      matVec_eq_some _ _ (fun r hr => by rw [hp r hr, hrows row (by simp)])
    rw [userSweep, h1, ih (fun r hr => hrows r (by simp [hr]))]
    rfl

theorem userSweep_length {pinv : Mat → Mat} {items ratings nu : Mat}
    (h : userSweep pinv items ratings = some nu) :
    nu.length = ratings.length := by
  induction ratings generalizing nu with
  | nil =>
    rw [userSweep] at h
    cases h
    rfl
  | cons row rest ih =>
    rw [userSweep] at h
    cases h1 : matVec (pinv items) row with
    | none => rw [h1] at h; cases h
    | some u =>
      rw [h1] at h
      cases h2 : userSweep pinv items rest with
      | none => rw [h2] at h; cases h
      | some us =>
        rw [h2] at h
        cases h
        simp [ih h2]

theorem userSweep_getElem {pinv : Mat → Mat} {items : Mat} :
    ∀ {ratings nu : Mat}, userSweep pinv items ratings = some nu →
      ∀ {i : Nat} {row : Vec}, ratings[i]? = some row →
        nu[i]? = matVec (pinv items) row := by
  intro ratings
  induction ratings with
  | nil => intro nu h i row hr; simp at hr
  | cons r0 rest ih =>
    intro nu h i row hr
    rw [userSweep] at h
    cases h1 : matVec (pinv items) r0 with
    | none => rw [h1] at h; cases h
    | some u =>
      rw [h1] at h
      cases h2 : userSweep pinv items rest with
      | none => rw [h2] at h; cases h
      | some us =>
        rw [h2] at h
        cases h
        cases i with
        | zero =>
          rw [List.getElem?_cons_zero] at hr
          cases hr
          simp [h1]
        | succ j =>
          rw [List.getElem?_cons_succ] at hr
          rw [List.getElem?_cons_succ]
          exact ih h2 hr

theorem itemSweepAux_length {P rc : Mat} :
    ∀ {n i : Nat} {ni : Mat}, itemSweepAux P rc i n = some ni → ni.length = n := by
  intro n
  induction n with
  | zero =>
    intro i ni h
    rw [itemSweepAux] at h
    cases h
    rfl
  | succ m ih =>
    intro i ni h
    rw [itemSweepAux] at h
    simp only [Option.bind_eq_bind, Option.bind_eq_some] at h
    obtain ⟨c, _, q, _, qs, hqs, heq⟩ := h
    cases heq
    simp [ih hqs]

theorem itemSweepAux_some (P rc : Mat) :
    ∀ (n i : Nat),
      (∀ j < n, ∃ c, rc[i + j]? = some c ∧ ∀ r ∈ P, r.length = c.length) →
      ∃ ni, itemSweepAux P rc i n = some ni ∧ ni.length = n ∧
        ∀ q ∈ ni, q.length = P.length := by
  intro n
  induction n with
  | zero =>
    intro i _
    exact ⟨[], by rw [itemSweepAux], rfl, by simp⟩
  | succ m ih =>
    intro i h
    obtain ⟨c, hc, hcl⟩ := h 0 (Nat.succ_pos m)
    rw [Nat.add_zero] at hc
    have hmv : matVec P c = some (P.map (fun r => dot r c)) := matVec_eq_some _ _ hcl
    obtain ⟨ni, hni, hlen, hrows⟩ := ih (i + 1) (fun j hj => by
      obtain ⟨c', hc', hcl'⟩ := h (j + 1) (by omega)
      exact ⟨c', by rw [show i + 1 + j = i + (j + 1) by omega]; exact hc', hcl'⟩)
    refine ⟨(P.map (fun r => dot r c)) :: ni, ?_, by simp [hlen], ?_⟩
    · rw [itemSweepAux, hc]
      simp only [Option.bind_eq_bind, Option.some_bind]
      rw [hmv]
      simp only [Option.some_bind]
      rw [hni]
      rfl
    · intro q hq
      rcases List.mem_cons.mp hq with h' | h'
      · simp [h']
      · exact hrows q h'

theorem matMulAux_some (Bt : Mat) (k n : Nat) (hBt : isRect Bt n k) :
    ∀ (A : Mat), (∀ a ∈ A, a.length = k) →
      ∃ C, matMulAux Bt A = some C ∧ C.length = A.length ∧ ∀ c ∈ C, c.length = n := by
  intro A
  induction A with
  | nil => exact fun _ => ⟨[], by rw [matMulAux], rfl, by simp⟩
  | cons a rest ih =>
    intro h
    have hmv : matVec Bt a = some (Bt.map (fun r => dot r a)) :=
      matVec_eq_some _ _ (fun r hr => by rw [hBt.2 r hr, h a (by simp)])
    obtain ⟨C, hC, hlen, hrows⟩ := ih (fun a' ha' => h a' (by simp [ha']))
    refine ⟨(Bt.map (fun r => dot r a)) :: C, ?_, by simp [hlen], ?_⟩
    · rw [matMulAux, hmv]
      simp only [Option.bind_eq_bind, Option.some_bind]
      rw [hC]
      rfl
    · intro c hc
      rcases List.mem_cons.mp hc with h' | h'
      · simp [h', hBt.1]
      · exact hrows c h'

theorem matMul_rect {A B : Mat} {m k n : Nat} (hA : isRect A m k) (hB : isRect B k n)
    (hk : 0 < k) : ∃ C, matMul A B = some C ∧ isRect C m n := by
  obtain ⟨C, h1, h2, h3⟩ := matMulAux_some (tr B) k n (tr_rect hB hk) A hA.2
  exact ⟨C, h1, by rw [h2, hA.1], h3⟩

theorem rowErrFrom_eq_some (guess : Mat) (i : Nat) (grow : Vec)
    (hg : guess[i]? = some grow) :
    ∀ (row : Vec) (j : Nat), j + row.length ≤ grow.length →
      rowErrFrom guess i row j =
        some ((List.zipWith (fun x y => if x = 0 then 0 else (x - y) ^ 2) row
          (grow.drop j)).sum) := by
  intro row
  induction row with
  | nil => intro j _; simp [rowErrFrom]
  | cons x rest ih =>
    intro j hj
    have hjlt : j < grow.length := by
      simp only [List.length_cons] at hj
      omega
    have hgj : grow[j]? = some grow[j] := List.getElem?_eq_getElem hjlt
    rw [rowErrFrom]
    rw [List.drop_eq_getElem_cons hjlt]
    simp only [List.zipWith_cons_cons, List.sum_cons]
    rw [ih (j + 1) (by simp only [List.length_cons] at hj; omega)]
    by_cases hx : x = 0
    · simp [hx]
    · simp only [if_neg hx, hg, hgj, Option.bind_eq_bind, Option.some_bind]

theorem maskedErrAux_eq_some (guess : Mat) :
    ∀ (rows : List Vec) (i : Nat),
      (∀ t < rows.length, ∃ g, guess[i + t]? = some g ∧ (rows.getD t []).length ≤ g.length) →
      maskedErrAux guess rows i =
        some ((List.zipWith
          (fun r g => (List.zipWith (fun x y => if x = 0 then 0 else (x - y) ^ 2) r g).sum)
          rows (guess.drop i)).sum) := by
  intro rows
  induction rows with
  | nil => intro i _; simp [maskedErrAux]
  | cons row rest ih =>
    intro i h
    obtain ⟨g0, hg0, hlen0⟩ := h 0 (by simp)
    rw [Nat.add_zero] at hg0
    rw [List.getD_cons_zero] at hlen0
    have hilt : i < guess.length := by
      by_contra hc
      rw [List.getElem?_eq_none (by omega)] at hg0
      exact Option.noConfusion hg0
    have hgi : guess[i] = g0 := by
      rw [List.getElem?_eq_getElem hilt] at hg0
      exact Option.some.inj hg0
    rw [maskedErrAux]
    rw [rowErrFrom_eq_some guess i g0 hg0 row 0 (by simpa using hlen0)]
    rw [ih (i + 1) (fun t ht => by
      obtain ⟨g, hgt, hl⟩ := h (t + 1) (by simpa using Nat.succ_lt_succ ht)
      refine ⟨g, ?_, by simpa using hl⟩
      rw [show i + 1 + t = i + (t + 1) by omega]
      exact hgt)]
    rw [List.drop_eq_getElem_cons hilt, hgi]
    simp only [List.drop_zero, List.zipWith_cons_cons, List.sum_cons,
      Option.bind_eq_bind, Option.some_bind]

theorem ratings_arr_iteration_shapes (pinv : Mat → Mat) (items : Mat)
    (hp : pinvSpec pinv) (hi : isRect items 5 10) :
    ∃ nu ni guess, userSweep pinv items ratings_arr = some nu ∧ isRect nu 2 10 ∧
      itemSweep pinv nu ratings_arr (tr ratings_arr) = some ni ∧ isRect ni 2 10 ∧
      matMul nu (tr ni) = some guess ∧ isRect guess 2 2 := by
  have hpi : isRect (pinv items) 10 5 := hp items 5 10 hi (by omega)
  have hrows : ∀ row ∈ ratings_arr, row.length = 5 := by decide
  have hus := userSweep_eq_some pinv items ratings_arr 5 hrows hpi.2
  set nu := ratings_arr.map (fun row => (pinv items).map fun r => dot r row) with hnu
  have hnurect : isRect nu 2 10 := by
    constructor
    · simp [hnu, ratings_arr]
    · intro row hr
      simp only [hnu, List.mem_map] at hr
      obtain ⟨r, _, rfl⟩ := hr
      simp [hpi.1]
  have hpnu : isRect (pinv nu) 10 2 := hp nu 2 10 hnurect (by omega)
  obtain ⟨ni, hni, hnilen, hnirows⟩ := itemSweepAux_some (pinv nu) (tr ratings_arr) 2 0
    (by
      intro j hj
      interval_cases j
      · exact ⟨[0, 0], by decide, fun r hr => by simp [hpnu.2 r hr]⟩
      · exact ⟨[1, 0], by decide, fun r hr => by simp [hpnu.2 r hr]⟩)
  have hnirect : isRect ni 2 10 := ⟨hnilen, fun q hq => by rw [hnirows q hq, hpnu.1]⟩
  have htrni : isRect (tr ni) 10 2 := tr_rect hnirect (by omega)
  obtain ⟨guess, hguess, hgrect⟩ := matMul_rect hnurect htrni (by omega)
  exact ⟨nu, ni, guess, hus, hnurect, hni, hnirect, hguess, hgrect⟩

theorem maskedErr_ratings_arr_none (guess : Mat) (g0 : Vec)
    (h0 : guess[0]? = some g0) (hlen : g0.length = 2) :
    maskedErr ratings_arr guess = none := by
  match g0, hlen with
  | [a, b], _ =>
    simp [maskedErr, ratings_arr, maskedErrAux, rowErrFrom, h0]

theorem alsStep_ratings_arr_none (pinv : Mat → Mat) (items : Mat)
    (hp : pinvSpec pinv) (hi : isRect items 5 10) :
    alsStep pinv ratings_arr (tr ratings_arr) items = none := by
  obtain ⟨nu, ni, guess, h1, _, h2, _, h3, hg⟩ :=
    ratings_arr_iteration_shapes pinv items hp hi
  have hpos : 0 < guess.length := by rw [hg.1]; omega
  have hcrash : maskedErr ratings_arr guess = none :=
    maskedErr_ratings_arr_none guess guess[0] (List.getElem?_eq_getElem hpos)
      (hg.2 _ (List.getElem_mem hpos))
  rw [alsStep, h1]
  simp only [Option.bind_eq_bind, Option.some_bind]
  rw [h2]
  simp only [Option.some_bind]
  rw [h3]
  simp only [Option.some_bind]
  rw [hcrash]
  rfl

theorem alsIterSt_preserves_state (pinv : Mat → Mat) :
    ∀ (n : Nat) (st : Mat × Mat) (items : Mat) (r : (Mat × Mat) × Mat × Mat × List ℚ),
      alsIterSt pinv n st items = some r → r.1 = st
  | 0, st, items, r, h => by
    rw [alsIterSt] at h
    exact Option.noConfusion h
  | 1, st, items, r, h => by
    rw [alsIterSt] at h
    simp only [Option.bind_eq_bind, Option.bind_eq_some] at h
    obtain ⟨⟨nu, ni, g, e⟩, _, heq⟩ := h
    cases heq
    rfl
  | n + 2, st, items, r, h => by
    rw [alsIterSt] at h
    simp only [Option.bind_eq_bind, Option.bind_eq_some] at h
    obtain ⟨⟨nu0, ni0, g0, e0⟩, _, ⟨st', nu, ni, errs⟩, hr', heq⟩ := h
    cases heq
    simpa using alsIterSt_preserves_state pinv (n + 1) st ni0 (st', nu, ni, errs) hr'

/-! ## Claim theorems -/

/-- C1: the claim says the item sweep performs one least-squares solve per
item (r solves, r = number of columns of R) and that the new item-factor
matrix has exactly r rows.  The code's loop runs `for i in range(len(ratings))`,
so whenever the sweep completes it produces exactly `len(ratings)` = m rows —
one per USER row of R, not one per item; for the notebook's 2×5 example this
is 2 rows where the claim demands 5. -/
theorem itemSweep_row_count_is_num_users (pinv : Mat → Mat)
    (nu ratings ratings_cols ni : Mat)
    (h : itemSweep pinv nu ratings ratings_cols = some ni) :
    ni.length = ratings.length :=
  itemSweepAux_length h

/-- Witness for C1 at the notebook's 2×5 example: the item sweep there
returns a 2-row item-factor matrix (the ratings matrix has 2 rows and 5
columns). -/
theorem itemSweep_row_count_is_num_users_witness :
    (List.replicate 2 (List.replicate 10 (0 : ℚ))).length = ratings_arr.length :=
  itemSweep_row_count_is_num_users tr (List.replicate 2 (List.replicate 10 0))
    ratings_arr (tr ratings_arr) (List.replicate 2 (List.replicate 10 0))
    (by norm_num [itemSweep, itemSweepAux, matVec, tr, dot, ratings_arr, List.replicate])

/-- C2: the claim says the reconstruction P·Qᵀ has the shape of R after every
iteration, including when m ≠ r.  On the 2×5 ratings matrix `ratings_arr`,
for every pseudo-inverse satisfying the shape contract and every 5×10 initial
item matrix, the first iteration's reconstruction is a 2×2 matrix, not 2×5. -/
theorem als_iteration_reconstruction_shape_2x2 (pinv : Mat → Mat) (items : Mat)
    (hp : pinvSpec pinv) (hi : isRect items 5 10) :
    ∃ nu ni guess, userSweep pinv items ratings_arr = some nu ∧
      itemSweep pinv nu ratings_arr (tr ratings_arr) = some ni ∧
      matMul nu (tr ni) = some guess ∧ isRect guess 2 2 ∧ ¬ isRect guess 2 5 := by
  obtain ⟨nu, ni, guess, h1, _, h2, _, h3, hg⟩ :=
    ratings_arr_iteration_shapes pinv items hp hi
  refine ⟨nu, ni, guess, h1, h2, h3, hg, ?_⟩
  rintro ⟨_, hr5⟩
  have hpos : 0 < guess.length := by rw [hg.1]; omega
  have ha : guess[0].length = 2 := hg.2 _ (List.getElem_mem hpos)
  have hb : guess[0].length = 5 := hr5 _ (List.getElem_mem hpos)
  omega

/-- Witness for C2 with `pinv := tr` and the zero 5×10 item matrix. -/
theorem als_iteration_reconstruction_shape_2x2_witness :
    ∃ nu ni guess, userSweep tr items_init ratings_arr = some nu ∧
      itemSweep tr nu ratings_arr (tr ratings_arr) = some ni ∧
      matMul nu (tr ni) = some guess ∧ isRect guess 2 2 ∧ ¬ isRect guess 2 5 :=
  als_iteration_reconstruction_shape_2x2 tr items_init tr_pinvSpec (by decide)

/-- C3: the claim says the optimizer returns the final reconstruction as an
m×r dense matrix.  On a 2×3 ratings matrix whose nonzero entries lie in the
first two columns the run completes, and the returned matrix is 2×2 (m×m),
not 2×3 (m×r): the final `new_users.dot(new_items.T)` inherits the item
sweep's wrong row count. -/
theorem als_wide_returns_square_reconstruction :
    (als tr ratings_wide [] items_init_wide 1).map (fun p => shape p.1) = some (2, 2) ∧
      shape ratings_wide = (2, 3) := by
  constructor
  · decide
  · decide

/-- C4: the claim says that on R = [[0,1,0,0,4],[0,0,0,5,0]] with k = 10 one
iteration yields a 2×5 reconstruction and a finite masked error.  Instead,
for every pseudo-inverse satisfying the shape contract, every (ignored)
initial user matrix and every 5×10 initial item matrix, the run aborts: the
reconstruction is 2×2 and the error loop reads `guess[0, 4]`, an
out-of-range access (numpy `IndexError`). -/
theorem als_example_scenario_aborts (pinv : Mat → Mat) (users items : Mat)
    (hp : pinvSpec pinv) (hi : isRect items 5 10) :
    als pinv ratings_arr users items 1 = none := by
  rw [als, alsIter, alsStep_ratings_arr_none pinv items hp hi]
  rfl

/-- Witness for C4 with `pinv := tr` and the zero 5×10 item matrix. -/
theorem als_example_scenario_aborts_witness :
    als tr ratings_arr [] items_init 1 = none :=
  als_example_scenario_aborts tr [] items_init tr_pinvSpec (by decide)

/-- C5: whenever the user sweep completes, it produced one factor row per
user row of R, and the i-th new user-factor row is exactly
`pinv(items) · R[i]` computed against the raw full rating row — sentinel
zeros included in the least-squares target, nothing masked out. -/
theorem userSweep_solves_raw_rows (pinv : Mat → Mat) (items ratings nu : Mat)
    (h : userSweep pinv items ratings = some nu) :
    nu.length = ratings.length ∧
      ∀ (i : Nat) (row : Vec), ratings[i]? = some row →
        nu[i]? = matVec (pinv items) row :=
  ⟨userSweep_length h, fun _ _ hr => userSweep_getElem h hr⟩

/-- Witness for C5 on a 2×2 ratings matrix with sentinel zeros, `pinv := tr`. -/
theorem userSweep_solves_raw_rows_witness :
    ([[(6 : ℚ)], [1]] : Mat).length = ([[0, 3], [1, 0]] : Mat).length ∧
      ∀ (i : Nat) (row : Vec), ([[0, 3], [1, 0]] : Mat)[i]? = some row →
        ([[(6 : ℚ)], [1]] : Mat)[i]? = matVec (tr [[1], [2]]) row :=
  userSweep_solves_raw_rows tr [[1], [2]] [[0, 3], [1, 0]] [[6], [1]]
    (by norm_num [userSweep, matVec, tr, dot])

/-- C6: when the reconstruction has the shape of R, the error the code
reports equals the spec's masked squared error: the sum, over exactly the
entries with R[i,j] ≠ 0, of (R[i,j] − R̂[i,j])²; every sentinel (zero) entry
contributes exactly 0 to the sum whatever R̂ holds there (the `if` in
`specMaskedErr` discards R̂[i,j] at those positions). -/
theorem maskedErr_eq_specMaskedErr (ratings guess : Mat) (m r : Nat)
    (hrat : isRect ratings m r) (hg : isRect guess m r) :
    maskedErr ratings guess = some (specMaskedErr ratings guess) := by
  have hcond : ∀ t < ratings.length,
      ∃ g, guess[0 + t]? = some g ∧ (ratings.getD t []).length ≤ g.length := by
    intro t ht
    have htg : t < guess.length := by rw [hg.1]; rw [hrat.1] at ht; exact ht
    refine ⟨guess[t], by rw [Nat.zero_add]; exact List.getElem?_eq_getElem htg, ?_⟩
    have h1 : (ratings.getD t []).length = r := by
      rw [List.getD_eq_getElem ratings [] ht]
      exact hrat.2 _ (List.getElem_mem ht)
    have h2 : guess[t].length = r := hg.2 _ (List.getElem_mem htg)
    omega
  rw [maskedErr, maskedErrAux_eq_some guess ratings 0 hcond, List.drop_zero]
  rfl

/-- Witness for C6 on a 2×2 ratings matrix with two observed and two
sentinel entries. -/
theorem maskedErr_eq_specMaskedErr_witness :
    maskedErr [[0, 1], [2, 0]] [[5, 3], [1, 7]] =
      some (specMaskedErr [[0, 1], [2, 0]] [[5, 3], [1, 7]]) :=
  maskedErr_eq_specMaskedErr [[0, 1], [2, 0]] [[5, 3], [1, 7]] 2 2 (by decide) (by decide)

/-- C7: the `users` argument is dead: two runs differing only in the
caller-supplied initial user-factor matrix return the same prediction matrix
and the same sequence of per-iteration errors, because the user factors are
recomputed from `items` at the start of every iteration and `users` is never
read. -/
theorem als_independent_of_users_argument (pinv : Mat → Mat)
    (ratings items : Mat) (reps : Nat) (users1 users2 : Mat) :
    als pinv ratings users1 items reps = als pinv ratings users2 items reps := rfl

/-- C8: determinism — two runs on equal inputs return equal outputs (the
prediction matrix and the whole error sequence), the embedding being a pure
function of its arguments. -/
theorem als_deterministic (pinv : Mat → Mat) (r1 r2 u1 u2 q1 q2 : Mat) (t1 t2 : Nat)
    (hr : r1 = r2) (hu : u1 = u2) (hq : q1 = q2) (ht : t1 = t2) :
    als pinv r1 u1 q1 t1 = als pinv r2 u2 q2 t2 := by
  rw [hr, hu, hq, ht]

/-- Witness for C8: two identically-configured runs on the 2×3 example
coincide. -/
theorem als_deterministic_witness :
    als tr ratings_wide [] items_init_wide 1 = als tr ratings_wide [] items_init_wide 1 :=
  als_deterministic tr ratings_wide ratings_wide [] [] items_init_wide items_init_wide
    1 1 rfl rfl rfl rfl

/-- C9: the ratings matrix is never mutated.  In the state-passing rendering
`alsSt`, which threads the ratings buffer (and its transposed view) through
every iteration, any completed run hands the ratings matrix back exactly as
it received it: no statement of the loop writes to it. -/
theorem alsSt_returns_ratings_unchanged (pinv : Mat → Mat)
    (ratings users items : Mat) (reps : Nat) (out : Mat × Mat × List ℚ)
    (h : alsSt pinv ratings users items reps = some out) :
    out.1 = ratings := by
  rw [alsSt] at h
  simp only [Option.bind_eq_bind, Option.bind_eq_some] at h
  obtain ⟨⟨st', nu, ni, errs⟩, hr, final, _, heq⟩ := h
  cases heq
  have hst := alsIterSt_preserves_state pinv reps (ratings, tr ratings) items
    (st', nu, ni, errs) hr
  simpa using congrArg Prod.fst hst

/-- Witness for C9 on a complete 1×1 run with `pinv := tr`. -/
theorem alsSt_returns_ratings_unchanged_witness :
    (([[(1 : ℚ)]], [[(1 : ℚ)]], ([0] : List ℚ)) : Mat × Mat × List ℚ).1 = [[(1 : ℚ)]] :=
  alsSt_returns_ratings_unchanged tr [[1]] [[1]] [[1]] 1 ([[1]], [[1]], [0])
    (by norm_num [alsSt, alsIterSt, alsStep, userSweep, itemSweep, itemSweepAux, matMul,
      matMulAux, matVec, tr, dot, maskedErr, maskedErrAux, rowErrFrom,
      show List.range 1 = [0] from rfl, Function.comp])

/-- C10: a ratings row that is entirely sentinel (all zeros) still yields a
defined user-factor row: the solve `pinv(items) · 0` evaluates exactly to the
zero vector of length k, so nothing undefined (and, in exact arithmetic,
no NaN) enters later iterations. -/
theorem userSweep_zero_row_yields_zero_vector (pinv : Mat → Mat)
    (items ratings nu : Mat) (i n : Nat)
    (hp : ∀ r ∈ pinv items, r.length = n)
    (hrow : ratings[i]? = some (List.replicate n 0))
    (h : userSweep pinv items ratings = some nu) :
    nu[i]? = some (List.replicate (pinv items).length 0) := by
  rw [userSweep_getElem h hrow]
  exact matVec_replicate_zero (pinv items) n hp

/-- Witness for C10: a 2×2 ratings matrix whose first row is all-sentinel,
`pinv := tr`; the first user-factor row is the zero vector. -/
theorem userSweep_zero_row_yields_zero_vector_witness :
    ([[(0 : ℚ)], [5]] : Mat)[0]? = some (List.replicate (tr [[1], [2]]).length 0) :=
  userSweep_zero_row_yields_zero_vector tr [[1], [2]] [[0, 0], [1, 2]] [[0], [5]] 0 2
    (by decide) (by decide) (by norm_num [userSweep, matVec, tr, dot])
